import Mathlib

/-!
Verification of the RAG backend of the brightertext repository
(`rag_backend.py`): chunking, cosine similarity, knowledge-base build,
retrieval and feedback composition.

Python strings are modelled as lists of characters (`Str`), Python floats
as real numbers, and the external OpenAI client as injected function
parameters whose batched invocations are returned alongside the result so
that claims about "no call is made" are statable.
-/

namespace BrighterText

/-- Python strings, modelled as lists of characters. -/
abbrev Str := List Char

/-- Python `text.split()`: split on whitespace, discarding empty pieces
(leading, trailing and repeated whitespace produce no tokens). -/
def pysplit (s : Str) : List Str :=
  (s.splitOnP (fun c => c.isWhitespace)).filter (fun t => decide (t ≠ []))

/-- Python `s.strip()`: remove leading and trailing whitespace. -/
def strip (s : Str) : Str :=
  ((s.dropWhile Char.isWhitespace).reverse.dropWhile Char.isWhitespace).reverse

/-- Python `" ".join(ts)`: concatenate the pieces with single spaces. -/
def joinSp : List Str → Str
  | [] => []
  | [t] => t
  | t :: t₂ :: ts => t ++ ' ' :: joinSp (t₂ :: ts)

/-- The loop of `chunk_text`: `for i in range(0, len(words), words_per_chunk)`
takes successive windows of `words_per_chunk` tokens, joins each window with
single spaces and keeps it only if it is nonempty after stripping.
(Python `range` with step 0 raises `ValueError`; that degenerate case is
modelled as the empty result and is outside every claim, which all assume
`words_per_chunk ≥ 1`.) -/
def chunkLoop (w : Nat) (ws : List Str) : List Str :=
  if h : ws = [] ∨ w = 0 then []
  else
    if strip (joinSp (ws.take w)) ≠ [] then
      joinSp (ws.take w) :: chunkLoop w (ws.drop w)
    else chunkLoop w (ws.drop w)
termination_by ws.length
decreasing_by
  all_goals
    have h1 : ws ≠ [] := fun hh => h (Or.inl hh)
    have h2 : w ≠ 0 := fun hh => h (Or.inr hh)
    have h3 : 0 < ws.length := List.length_pos.mpr h1
    simp only [List.length_drop]
    omega

/-- `chunk_text` from `rag_backend.py` (the Python default for
`words_per_chunk` is 350). -/
def chunk_text (text : Str) (words_per_chunk : Nat) : List Str :=
  chunkLoop words_per_chunk (pysplit text)

/-- Successive windows of `w` elements (the final one possibly shorter);
the window decomposition underlying `chunk_text`. -/
def groupsOf (w : Nat) (l : List Str) : List (List Str) :=
  if h : l = [] ∨ w = 0 then []
  else l.take w :: groupsOf w (l.drop w)
termination_by l.length
decreasing_by
  have h1 : l ≠ [] := fun hh => h (Or.inl hh)
  have h2 : w ≠ 0 := fun hh => h (Or.inr hh)
  have h3 : 0 < l.length := List.length_pos.mpr h1
  simp only [List.length_drop]
  omega

/-- A well-formed token list: every token is nonempty and whitespace-free.
`pysplit` produces only such token lists. -/
def goodTokens (ws : List Str) : Prop :=
  ∀ t ∈ ws, t ≠ [] ∧ ∀ c ∈ t, c.isWhitespace = false

theorem splitOnP_wsfree {α : Type} (p : α → Bool) (l : List α) :
    ∀ t ∈ l.splitOnP p, ∀ c ∈ t, p c = false := by
  induction l with
  | nil =>
    intro t ht c hc
    rw [List.splitOnP_nil] at ht
    simp only [List.mem_singleton] at ht
    subst ht
    simp at hc
  | cons x xs ih =>
    intro t ht c hc
    rw [List.splitOnP_cons] at ht
    by_cases hx : p x
    · rw [if_pos hx] at ht
      rcases List.mem_cons.mp ht with h1 | h1
      · subst h1; simp at hc
      · exact ih t h1 c hc
    · rw [if_neg hx] at ht
      rcases hsp : xs.splitOnP p with _ | ⟨hd, tl⟩
      · exact absurd hsp (List.splitOnP_ne_nil p xs)
      · rw [hsp, List.modifyHead] at ht
        rcases List.mem_cons.mp ht with h1 | h1
        · subst h1
          rcases List.mem_cons.mp hc with h2 | h2
          · subst h2; exact Bool.eq_false_iff.mpr hx
          · exact ih hd (hsp ▸ List.mem_cons_self hd tl) c h2
        · exact ih t (hsp ▸ List.mem_cons.mpr (Or.inr h1)) c hc

theorem goodTokens_pysplit (s : Str) : goodTokens (pysplit s) := by
  intro t ht
  rw [pysplit, List.mem_filter] at ht
  refine ⟨by simpa using ht.2, ?_⟩
  intro c hc
  exact splitOnP_wsfree _ s t ht.1 c hc

theorem goodTokens_sub {ws ws' : List Str} (h : goodTokens ws)
    (hsub : ∀ t ∈ ws', t ∈ ws) : goodTokens ws' :=
  fun t ht => h t (hsub t ht)

theorem joinSp_ne_nil {ts : List Str} (hne : ts ≠ []) (h : goodTokens ts) :
    joinSp ts ≠ [] := by
  match ts with
  | [] => exact absurd rfl hne
  | [t] => exact (h t (List.mem_singleton.mpr rfl)).1
  | t :: t₂ :: ts =>
    rw [joinSp]
    exact List.append_ne_nil_of_right_ne_nil t (List.cons_ne_nil _ _)

theorem joinSp_head?_wsfree : ∀ {ts : List Str}, goodTokens ts →
    ∀ c, (joinSp ts).head? = some c → c.isWhitespace = false := by
  intro ts h c hc
  match ts with
  | [] => simp [joinSp] at hc
  | [t] =>
    have ht := h t (List.mem_singleton.mpr rfl)
    rw [joinSp] at hc
    cases t with
    | nil => exact absurd rfl ht.1
    | cons a l =>
      simp only [List.head?_cons, Option.some.injEq] at hc
      exact hc ▸ ht.2 a (List.mem_cons_self a l)
  | t :: t₂ :: ts =>
    have ht := h t (List.mem_cons_self _ _)
    rw [joinSp] at hc
    cases t with
    | nil => exact absurd rfl ht.1
    | cons a l =>
      simp only [List.cons_append, List.head?_cons, Option.some.injEq] at hc
      exact hc ▸ ht.2 a (List.mem_cons_self a l)

theorem mem_of_getLast?_eq_some : ∀ {l : List α} {c : α}, l.getLast? = some c → c ∈ l := by
  intro l c h
  match l with
  | [] => simp at h
  | [a] =>
    simp only [List.getLast?_singleton, Option.some.injEq] at h
    exact h ▸ List.mem_singleton.mpr rfl
  | a :: b :: l =>
    rw [List.getLast?_cons_cons] at h
    exact List.mem_cons.mpr (Or.inr (mem_of_getLast?_eq_some h))

theorem joinSp_getLast?_wsfree : ∀ {ts : List Str}, goodTokens ts →
    ∀ c, (joinSp ts).getLast? = some c → c.isWhitespace = false := by
  intro ts h c hc
  match ts with
  | [] => simp [joinSp] at hc
  | [t] =>
    have ht := h t (List.mem_singleton.mpr rfl)
    rw [joinSp] at hc
    exact ht.2 c (mem_of_getLast?_eq_some hc)
  | t :: t₂ :: ts =>
    have htail : goodTokens (t₂ :: ts) :=
      goodTokens_sub h (fun x hx => List.mem_cons.mpr (Or.inr hx))
    have hne : joinSp (t₂ :: ts) ≠ [] := joinSp_ne_nil (List.cons_ne_nil _ _) htail
    rw [joinSp] at hc
    rw [List.getLast?_append] at hc
    rcases hj : (joinSp (t₂ :: ts)).getLast? with _ | c'
    · exact absurd (List.getLast?_eq_none_iff.mp hj) hne
    · rw [List.getLast?_cons, hj] at hc
      simp only [Option.getD_some, Option.or_some, Option.some.injEq] at hc
      exact hc ▸ joinSp_getLast?_wsfree htail c' hj

theorem strip_joinSp {ts : List Str} (hne : ts ≠ []) (h : goodTokens ts) :
    strip (joinSp ts) = joinSp ts := by
  have h1 : (joinSp ts).dropWhile Char.isWhitespace = joinSp ts := by
    cases hj : joinSp ts with
    | nil => simp
    | cons a l =>
      have ha : a.isWhitespace = false :=
        joinSp_head?_wsfree h a (by rw [hj]; rfl)
      simp [List.dropWhile_cons, ha]
  have h2 : (joinSp ts).reverse.dropWhile Char.isWhitespace = (joinSp ts).reverse := by
    cases hj : (joinSp ts).reverse with
    | nil => simp
    | cons a l =>
      have ha : a.isWhitespace = false := by
        refine joinSp_getLast?_wsfree h a ?_
        rw [List.getLast?_eq_head?_reverse, hj]
        rfl
      simp [List.dropWhile_cons, ha]
  rw [strip, h1, h2, List.reverse_reverse]

theorem pysplit_joinSp : ∀ {ts : List Str}, goodTokens ts →
    pysplit (joinSp ts) = ts := by
  intro ts h
  match ts with
  | [] => rfl
  | [t] =>
    have ht := h t (List.mem_singleton.mpr rfl)
    rw [joinSp, pysplit]
    rw [List.splitOnP_eq_single _ _ (fun x hx => by simp [ht.2 x hx])]
    simp [ht.1]
  | t :: t₂ :: ts =>
    have ht := h t (List.mem_cons_self _ _)
    have htail : goodTokens (t₂ :: ts) :=
      goodTokens_sub h (fun x hx => List.mem_cons.mpr (Or.inr hx))
    rw [joinSp, pysplit]
    rw [List.splitOnP_first _ _ (fun x hx => by simp [ht.2 x hx]) ' ' (by decide)]
    rw [List.filter_cons_of_pos (by simpa using ht.1)]
    have := pysplit_joinSp htail
    rw [pysplit] at this
    rw [this]

theorem take_ne_nil_of_ne_nil {l : List Str} (hl : l ≠ []) {w : Nat} (hw : w ≠ 0) :
    l.take w ≠ [] := by
  cases l with
  | nil => exact absurd rfl hl
  | cons a t =>
    cases w with
    | zero => exact absurd rfl hw
    | succ n => simp [List.take]

theorem chunkLoop_eq_groups (w : Nat) (hw : w ≠ 0) :
    ∀ n (ws : List Str), ws.length ≤ n → goodTokens ws →
      chunkLoop w ws = (groupsOf w ws).map joinSp := by
  intro n
  induction n with
  | zero =>
    intro ws hlen _
    have hnil : ws = [] := List.length_eq_zero.mp (Nat.le_zero.mp hlen)
    subst hnil
    rw [chunkLoop, groupsOf]
    simp
  | succ n ih =>
    intro ws hlen hg
    by_cases hws : ws = []
    · subst hws
      rw [chunkLoop, groupsOf]
      simp
    · have hcond : ¬(ws = [] ∨ w = 0) := by
        rintro (hh | hh)
        · exact hws hh
        · exact hw hh
      rw [chunkLoop, groupsOf, dif_neg hcond, dif_neg hcond]
      have htake : ws.take w ≠ [] := take_ne_nil_of_ne_nil hws hw
      have hgood : goodTokens (ws.take w) :=
        goodTokens_sub hg (fun t ht => List.mem_of_mem_take ht)
      have hguard : strip (joinSp (ws.take w)) ≠ [] := by
        rw [strip_joinSp htake hgood]
        exact joinSp_ne_nil htake hgood
      rw [if_pos hguard, List.map_cons]
      congr 1
      refine ih (ws.drop w) ?_ (goodTokens_sub hg (fun t ht => List.mem_of_mem_drop ht))
      have : 0 < ws.length := List.length_pos.mpr hws
      simp only [List.length_drop]
      omega

theorem flatten_groupsOf (w : Nat) (hw : w ≠ 0) :
    ∀ n (l : List Str), l.length ≤ n → (groupsOf w l).flatten = l := by
  intro n
  induction n with
  | zero =>
    intro l hlen
    have hnil : l = [] := List.length_eq_zero.mp (Nat.le_zero.mp hlen)
    subst hnil
    rw [groupsOf]
    simp
  | succ n ih =>
    intro l hlen
    by_cases hl : l = []
    · subst hl
      rw [groupsOf]
      simp
    · have hcond : ¬(l = [] ∨ w = 0) := by
        rintro (hh | hh)
        · exact hl hh
        · exact hw hh
      rw [groupsOf, dif_neg hcond, List.flatten_cons]
      rw [ih (l.drop w) (by
        have : 0 < l.length := List.length_pos.mpr hl
        simp only [List.length_drop]
        omega)]
      exact List.take_append_drop w l

theorem mem_of_mem_groupsOf (w : Nat) :
    ∀ n (l : List Str), l.length ≤ n → ∀ g ∈ groupsOf w l, ∀ t ∈ g, t ∈ l := by
  intro n
  induction n with
  | zero =>
    intro l hlen g hgmem
    have hnil : l = [] := List.length_eq_zero.mp (Nat.le_zero.mp hlen)
    subst hnil
    rw [groupsOf] at hgmem
    simp at hgmem
  | succ n ih =>
    intro l hlen g hgmem t htmem
    by_cases hcond : l = [] ∨ w = 0
    · rw [groupsOf, dif_pos hcond] at hgmem
      simp at hgmem
    · rw [groupsOf, dif_neg hcond] at hgmem
      rcases List.mem_cons.mp hgmem with h1 | h1
      · exact List.mem_of_mem_take (h1 ▸ htmem)
      · refine List.mem_of_mem_drop (ih (l.drop w) ?_ g h1 t htmem)
        have hl : l ≠ [] := fun hh => hcond (Or.inl hh)
        have : 0 < l.length := List.length_pos.mpr hl
        simp only [List.length_drop]
        omega

/-- The guardless normal form of `chunk_text`: split into tokens, group into
windows of `w` tokens, join each window with single spaces. -/
theorem chunk_text_eq_groups (text : Str) (w : Nat) (hw : w ≠ 0) :
    chunk_text text w = (groupsOf w (pysplit text)).map joinSp :=
  chunkLoop_eq_groups w hw (pysplit text).length (pysplit text) le_rfl
    (goodTokens_pysplit text)

/-- C1: chunking is lossless in token count.  For every input text and every
`window_size ≥ 1`, splitting each chunk produced by `chunk_text` back on
whitespace and concatenating the token lists in order reproduces exactly the
whitespace-token sequence of the original text. -/
theorem chunk_text_lossless (text : Str) (w : Nat) (hw : 1 ≤ w) :
    ((chunk_text text w).map pysplit).flatten = pysplit text := by
  have hw0 : w ≠ 0 := by omega
  have hg := goodTokens_pysplit text
  rw [chunk_text_eq_groups text w hw0, List.map_map]
  have hmap : (groupsOf w (pysplit text)).map (pysplit ∘ joinSp)
      = groupsOf w (pysplit text) := by
    rw [show groupsOf w (pysplit text)
          = (groupsOf w (pysplit text)).map id from (List.map_id _).symm]
    rw [List.map_map]
    refine List.map_congr_left ?_
    intro g hgmem
    have : goodTokens g :=
      goodTokens_sub hg
        (mem_of_mem_groupsOf w (pysplit text).length (pysplit text) le_rfl g
          (by simpa using hgmem))
    simp [pysplit_joinSp this]
  rw [hmap, flatten_groupsOf w hw0 (pysplit text).length (pysplit text) le_rfl]

/-- Witness for C1 at `text = "alpha beta gamma"`, `window_size = 2`. -/
theorem chunk_text_lossless_witness :
    1 ≤ 2 ∧
      ((chunk_text ("alpha beta gamma".toList) 2).map pysplit).flatten
        = pysplit ("alpha beta gamma".toList) :=
  ⟨by decide, chunk_text_lossless ("alpha beta gamma".toList) 2 (by decide)⟩

theorem ne_nil_of_mem_groupsOf (w : Nat) (hw : w ≠ 0) :
    ∀ n (l : List Str), l.length ≤ n → ∀ g ∈ groupsOf w l, g ≠ [] := by
  intro n
  induction n with
  | zero =>
    intro l hlen g hgmem
    have hnil : l = [] := List.length_eq_zero.mp (Nat.le_zero.mp hlen)
    subst hnil
    rw [groupsOf] at hgmem
    simp at hgmem
  | succ n ih =>
    intro l hlen g hgmem
    by_cases hcond : l = [] ∨ w = 0
    · rw [groupsOf, dif_pos hcond] at hgmem
      simp at hgmem
    · have hl : l ≠ [] := fun hh => hcond (Or.inl hh)
      rw [groupsOf, dif_neg hcond] at hgmem
      rcases List.mem_cons.mp hgmem with h1 | h1
      · exact h1 ▸ take_ne_nil_of_ne_nil hl hw
      · refine ih (l.drop w) ?_ g h1
        have : 0 < l.length := List.length_pos.mpr hl
        simp only [List.length_drop]
        omega

/-- C9: every chunk returned by `chunk_text` is a nonempty string with no
leading or trailing whitespace (`strip` is the identity on it), and the
`if chunk.strip()` guard never actually drops a window: `chunk_text` equals
the guardless decomposition into single-space joins of token windows. -/
theorem chunk_text_chunks_clean (text : Str) (w : Nat) (hw : 1 ≤ w) :
    (∀ c ∈ chunk_text text w, c ≠ [] ∧ strip c = c) ∧
      chunk_text text w = (groupsOf w (pysplit text)).map joinSp := by
  have hw0 : w ≠ 0 := by omega
  have hg := goodTokens_pysplit text
  refine ⟨?_, chunk_text_eq_groups text w hw0⟩
  intro c hc
  rw [chunk_text_eq_groups text w hw0] at hc
  rcases List.mem_map.mp hc with ⟨g, hgmem, rfl⟩
  have hgood : goodTokens g :=
    goodTokens_sub hg
      (mem_of_mem_groupsOf w (pysplit text).length (pysplit text) le_rfl g hgmem)
  have hgne : g ≠ [] :=
    ne_nil_of_mem_groupsOf w hw0 (pysplit text).length (pysplit text) le_rfl g hgmem
  exact ⟨joinSp_ne_nil hgne hgood, strip_joinSp hgne hgood⟩

/-- Witness for C9 at `text = " a  b "`, `window_size = 1`. -/
theorem chunk_text_chunks_clean_witness :
    1 ≤ 1 ∧
      ((∀ c ∈ chunk_text (" a  b ".toList) 1, c ≠ [] ∧ strip c = c) ∧
        chunk_text (" a  b ".toList) 1
          = (groupsOf 1 (pysplit (" a  b ".toList))).map joinSp) :=
  ⟨by decide, chunk_text_chunks_clean (" a  b ".toList) 1 (by decide)⟩

/-- C4 counterexample: for the empty input text, the token count is `0`, so
any `window_size` (here `1`) is at least the token count, yet `chunk_text`
produces no chunk at all rather than exactly one. -/
theorem chunk_text_single_counterexample :
    (pysplit ("".toList)).length ≤ 1 ∧ chunk_text ("".toList) 1 = [] := by
  constructor
  · decide
  · rw [chunk_text]
    rw [show pysplit ("".toList) = [] from rfl]
    rw [chunkLoop]
    simp

/-- C4 amended: for every input text whose whitespace-token sequence is
nonempty, chunking with `window_size` at least the total token count produces
exactly one chunk, namely the single-space join of all tokens (whose token
sequence is exactly the original token sequence).  For empty or
whitespace-only text the result is the empty chunk sequence instead. -/
theorem chunk_text_single (text : Str) (w : Nat) (h1 : pysplit text ≠ [])
    (h2 : (pysplit text).length ≤ w) :
    chunk_text text w = [joinSp (pysplit text)] ∧
      pysplit (joinSp (pysplit text)) = pysplit text := by
  have hg := goodTokens_pysplit text
  have hw0 : w ≠ 0 := by
    intro hh
    subst hh
    have := List.length_pos.mpr h1
    omega
  have hcond : ¬(pysplit text = [] ∨ w = 0) := by
    rintro (hh | hh)
    · exact h1 hh
    · exact hw0 hh
  have htake : (pysplit text).take w = pysplit text := List.take_of_length_le h2
  have hdrop : (pysplit text).drop w = [] := List.drop_eq_nil_of_le h2
  have hguard : strip (joinSp (pysplit text)) ≠ [] := by
    rw [strip_joinSp h1 hg]
    exact joinSp_ne_nil h1 hg
  refine ⟨?_, pysplit_joinSp hg⟩
  rw [chunk_text, chunkLoop, dif_neg hcond, htake, hdrop]
  rw [if_pos hguard]
  rw [show chunkLoop w [] = [] from by rw [chunkLoop]; simp]

/-- Witness for the amended C4 at `text = "alpha beta"`, `window_size = 5`. -/
theorem chunk_text_single_witness :
    (pysplit ("alpha beta".toList) ≠ [] ∧ (pysplit ("alpha beta".toList)).length ≤ 5) ∧
      (chunk_text ("alpha beta".toList) 5 = [joinSp (pysplit ("alpha beta".toList))] ∧
        pysplit (joinSp (pysplit ("alpha beta".toList))) = pysplit ("alpha beta".toList)) :=
  ⟨⟨by decide, by decide⟩,
    chunk_text_single ("alpha beta".toList) 5 (by decide) (by decide)⟩

/-! ### Vectors, cosine similarity, and the knowledge base

Python float vectors are modelled as lists of real numbers (the `np.array`
conversions with `dtype="float32"` are the identity in this model). -/

/-- `a @ b` (numpy dot product) on vectors. -/
def dot (a b : List ℝ) : ℝ :=
  (List.zipWith (fun x y => x * y) a b).sum

/-- `np.linalg.norm a`: the Euclidean norm `sqrt (Σ aᵢ²)`. -/
noncomputable def npnorm (a : List ℝ) : ℝ :=
  Real.sqrt (dot a a)

/-- `cosine_similarity` from `rag_backend.py`: `0.0` if either vector has
zero norm, otherwise `a @ b / (norm a * norm b)`. -/
noncomputable def cosine_similarity (a b : List ℝ) : ℝ :=
  if npnorm a = 0 ∨ npnorm b = 0 then 0
  else dot a b / (npnorm a * npnorm b)

/-- One knowledge-base record: the dict
`{"text": chunk, "source": path, "embedding": vector}`. -/
structure Record where
  text : Str
  source : Str
  embedding : List ℝ

/-- `embed_texts` from `rag_backend.py`, with the OpenAI embeddings client
modelled as the injected function `client` (one vector per input text is the
service contract).  It short-circuits on the empty batch without any client
call; otherwise it performs one batched call.  The second component is the
observable list of batched client invocations made. -/
def embed_texts (client : List Str → List (List ℝ)) (texts : List Str) :
    List (List ℝ) × List (List Str) :=
  match texts with
  | [] => ([], [])
  | _ => (client texts, [texts])

/-- The query vector of `retrieve_relevant_chunks`:
`embed_texts([question])[0]` (the indexing `[0]` is total under the
embedder contract; a contract-violating empty reply is modelled as the
zero-dimensional vector). -/
def queryVec (client : List Str → List (List ℝ)) (question : Str) : List ℝ :=
  (embed_texts client [question]).1.headD []

/-- The scoring loop of `retrieve_relevant_chunks`: one
`(cosine_similarity(q_vec, item["embedding"]), item)` pair per KB record,
in KB order. -/
noncomputable def scoreAll (q_vec : List ℝ) (kb : List Record) :
    List (ℝ × Record) :=
  kb.map (fun item => (cosine_similarity q_vec item.embedding, item))

/-- The comparison of `scored.sort(key=lambda x: x[0], reverse=True)`:
`x` may stay before `y` iff `y`'s score is at most `x`'s. -/
noncomputable def leScored (x y : ℝ × Record) : Bool :=
  decide (y.1 ≤ x.1)

/-- `scored.sort(key=lambda x: x[0], reverse=True)`: Python's `list.sort` is
a stable sort, and with `reverse=True` records with equal scores keep their
original relative order; modelled by the stable `mergeSort` on the
descending comparison. -/
noncomputable def sortScored (scored : List (ℝ × Record)) : List (ℝ × Record) :=
  scored.mergeSort leScored

/-- Python's slice `l[:k]` for an arbitrary integer `k`: the first `k`
elements if `k ≥ 0`, the first `len(l) + k` elements (clamped at zero) if
`k < 0`. -/
def pySlice {α : Type} (k : ℤ) (l : List α) : List α :=
  if 0 ≤ k then l.take k.toNat else l.take (l.length + k).toNat

/-- `retrieve_relevant_chunks` from `rag_backend.py`.  The second component
is the observable list of batched embedding-client invocations made. -/
noncomputable def retrieve_relevant_chunks (client : List Str → List (List ℝ))
    (question : Str) (kb : List Record) (k : ℤ) :
    List Record × List (List Str) :=
  match kb with
  | [] => ([], [])
  | _ =>
    ((pySlice k (sortScored (scoreAll (queryVec client question) kb))).map
        (fun p => p.2),
      (embed_texts client [question]).2)

/-- C5: `cosine_similarity` returns exactly `0` whenever either vector has
zero norm; otherwise it returns `dot a b / (npnorm a * npnorm b)` and the
denominator of that division is provably nonzero, so the guard fully
protects the division. -/
theorem cosine_similarity_guard (a b : List ℝ) :
    (npnorm a = 0 ∨ npnorm b = 0 → cosine_similarity a b = 0) ∧
      (npnorm a ≠ 0 → npnorm b ≠ 0 →
        npnorm a * npnorm b ≠ 0 ∧
          cosine_similarity a b = dot a b / (npnorm a * npnorm b)) := by
  constructor
  · intro h
    rw [cosine_similarity, if_pos h]
  · intro ha hb
    refine ⟨mul_ne_zero ha hb, ?_⟩
    rw [cosine_similarity, if_neg (by tauto)]

/-- Witness for C5: the zero vector `[0]` has zero norm and scores `0`
against `[1]`, while for `a = b = [1]` both norms are nonzero and the
unguarded quotient is returned. -/
theorem cosine_similarity_guard_witness :
    (npnorm [(0 : ℝ)] = 0 ∧ cosine_similarity [(0 : ℝ)] [(1 : ℝ)] = 0) ∧
      (npnorm [(1 : ℝ)] ≠ 0 ∧
        npnorm [(1 : ℝ)] * npnorm [(1 : ℝ)] ≠ 0 ∧
        cosine_similarity [(1 : ℝ)] [(1 : ℝ)]
          = dot [(1 : ℝ)] [(1 : ℝ)] / (npnorm [(1 : ℝ)] * npnorm [(1 : ℝ)])) := by
  have hd0 : dot [(0 : ℝ)] [(0 : ℝ)] = 0 := by simp [dot]
  have hd1 : dot [(1 : ℝ)] [(1 : ℝ)] = 1 := by simp [dot]
  have h0 : npnorm [(0 : ℝ)] = 0 := by rw [npnorm, hd0, Real.sqrt_zero]
  have h1 : npnorm [(1 : ℝ)] = 1 := by rw [npnorm, hd1, Real.sqrt_one]
  have hne : npnorm [(1 : ℝ)] ≠ 0 := by rw [h1]; norm_num
  have hc := (cosine_similarity_guard [(1 : ℝ)] [(1 : ℝ)]).2 hne hne
  exact ⟨⟨h0, (cosine_similarity_guard [(0 : ℝ)] [(1 : ℝ)]).1 (Or.inl h0)⟩,
    hne, hc.1, hc.2⟩


theorem leScored_trans (a b c : ℝ × Record) :
    leScored a b → leScored b c → leScored a c := by
  simp only [leScored, decide_eq_true_eq]
  exact fun h1 h2 => le_trans h2 h1

theorem leScored_total (a b : ℝ × Record) : leScored a b || leScored b a := by
  simp only [leScored, Bool.or_eq_true, decide_eq_true_eq]
  exact le_total b.1 a.1

theorem pairwise_of_forall_mem {α : Type} {le : α → α → Bool} :
    ∀ {m : List α}, (∀ a ∈ m, ∀ b ∈ m, le a b = true) → m.Pairwise (le · ·)
  | [], _ => List.Pairwise.nil
  | a :: m, h =>
    List.Pairwise.cons
      (fun b hb => h a (List.mem_cons_self a m) b (List.mem_cons.mpr (Or.inr hb)))
      (pairwise_of_forall_mem (fun x hx y hy =>
        h x (List.mem_cons.mpr (Or.inr hx)) y (List.mem_cons.mpr (Or.inr hy))))

/-- Stability of `mergeSort`, phrased through `filter`: the sorted list,
restricted to any class of elements that all compare `le` to each other in
both orders, is the input list restricted to that class. -/
theorem mergeSort_filter_eq {α : Type} (le : α → α → Bool)
    (htrans : ∀ a b c, le a b → le b c → le a c)
    (htotal : ∀ a b, le a b || le b a)
    (l : List α) (p : α → Bool)
    (hconst : ∀ a b, p a = true → p b = true → le a b = true) :
    (l.mergeSort le).filter p = l.filter p := by
  have hps : (l.filter p).Pairwise (le · ·) :=
    pairwise_of_forall_mem (fun a ha b hb =>
      hconst a b (List.mem_filter.mp ha).2 (List.mem_filter.mp hb).2)
  have hsub : List.Sublist (l.filter p) (l.mergeSort le) :=
    List.sublist_mergeSort htrans htotal hps (List.filter_sublist l)
  have heq : (l.filter p).filter p = l.filter p :=
    List.filter_eq_self.mpr (fun a ha => (List.mem_filter.mp ha).2)
  have hsub2 : List.Sublist (l.filter p) ((l.mergeSort le).filter p) :=
    heq ▸ hsub.filter p
  have hperm : List.Perm ((l.mergeSort le).filter p) (l.filter p) :=
    (List.mergeSort_perm l le).filter p
  exact (hsub2.eq_of_length hperm.length_eq.symm).symm

/-- A `filter` of a `take` is an order-preserving prefix of the `filter` of
the whole list. -/
theorem filter_take_eq_take_filter {α : Type} (p : α → Bool) (l : List α)
    (n : Nat) :
    (l.take n).filter p
      = (l.filter p).take ((l.take n).filter p).length := by
  conv_lhs => rw [← List.take_left ((l.take n).filter p) ((l.drop n).filter p)]
  congr 1
  rw [← List.filter_append, List.take_append_drop]

/-- C2: retrieval tie-break is stable.  For every client, query, KB, cut-off
`k` and score value `s`, the records scoring exactly `s` appear in the
similarity-sorted sequence in exactly their original KB order, and the
records scoring `s` that survive the `[:k]` cut are an order-preserving
prefix of them — so any two KB records with equal similarity scores appear
in the retrieved output in their original relative KB order. -/
theorem retrieve_tie_stable (client : List Str → List (List ℝ))
    (question : Str) (kb : List Record) (k : ℤ) (s : ℝ) :
    (sortScored (scoreAll (queryVec client question) kb)).filter
        (fun p => decide (p.1 = s))
      = (scoreAll (queryVec client question) kb).filter
        (fun p => decide (p.1 = s)) ∧
    (pySlice k (sortScored (scoreAll (queryVec client question) kb))).filter
        (fun p => decide (p.1 = s))
      = ((scoreAll (queryVec client question) kb).filter
          (fun p => decide (p.1 = s))).take
          ((pySlice k (sortScored (scoreAll (queryVec client question) kb))).filter
            (fun p => decide (p.1 = s))).length := by
  have hconst : ∀ a b : ℝ × Record, decide (a.1 = s) = true →
      decide (b.1 = s) = true → leScored a b = true := by
    intro a b ha hb
    rw [decide_eq_true_eq] at ha hb
    simp only [leScored, decide_eq_true_eq, ha, hb]
    exact le_refl s
  have h1 : (sortScored (scoreAll (queryVec client question) kb)).filter
        (fun p => decide (p.1 = s))
      = (scoreAll (queryVec client question) kb).filter
        (fun p => decide (p.1 = s)) :=
    mergeSort_filter_eq leScored leScored_trans leScored_total _ _ hconst
  refine ⟨h1, ?_⟩
  rw [pySlice]
  by_cases hk : 0 ≤ k
  · rw [if_pos hk]
    conv_lhs => rw [filter_take_eq_take_filter]
    rw [h1]
  · rw [if_neg hk]
    conv_lhs => rw [filter_take_eq_take_filter]
    rw [h1]

theorem scoreAll_fst_eq (q_vec : List ℝ) (kb : List Record) :
    ∀ p ∈ scoreAll q_vec kb, p.1 = cosine_similarity q_vec p.2.embedding := by
  intro p hp
  rcases List.mem_map.mp hp with ⟨item, _, rfl⟩
  rfl

theorem length_sortScored (scored : List (ℝ × Record)) :
    (sortScored scored).length = scored.length := by
  rw [sortScored, List.length_mergeSort]

/-- C3: for every client, query, KB, and positive `k`, retrieval returns at
most `k` and at most `|KB|` records, and the cosine-similarity scores of the
returned records against the query vector are non-increasing along the
returned sequence. -/
theorem retrieve_ranked (client : List Str → List (List ℝ)) (question : Str)
    (kb : List Record) (k : ℤ) (hk : 0 < k) :
    ((retrieve_relevant_chunks client question kb k).1).length ≤ k.toNat ∧
      ((retrieve_relevant_chunks client question kb k).1).length ≤ kb.length ∧
      List.Pairwise
        (fun a b : Record =>
          cosine_similarity (queryVec client question) b.embedding
            ≤ cosine_similarity (queryVec client question) a.embedding)
        ((retrieve_relevant_chunks client question kb k).1) := by
  cases kb with
  | nil =>
    refine ⟨?_, ?_, ?_⟩ <;> simp [retrieve_relevant_chunks]
  | cons r rest =>
    have hout : (retrieve_relevant_chunks client question (r :: rest) k).1
        = (pySlice k (sortScored
            (scoreAll (queryVec client question) (r :: rest)))).map
            (fun p => p.2) := rfl
    have hslice : pySlice k (sortScored
          (scoreAll (queryVec client question) (r :: rest)))
        = (sortScored (scoreAll (queryVec client question) (r :: rest))).take
            k.toNat := by
      rw [pySlice, if_pos (le_of_lt hk)]
    rw [hout, hslice]
    refine ⟨?_, ?_, ?_⟩
    · rw [List.length_map, List.length_take]
      exact min_le_left _ _
    · rw [List.length_map, List.length_take]
      refine le_trans (min_le_right _ _) ?_
      rw [length_sortScored, scoreAll, List.length_map]
    · rw [List.pairwise_map]
      have hsorted := List.sorted_mergeSort leScored_trans leScored_total
        (scoreAll (queryVec client question) (r :: rest))
      have htake : List.Pairwise (fun a b => leScored a b)
          ((sortScored (scoreAll (queryVec client question) (r :: rest))).take
            k.toNat) :=
        List.Pairwise.sublist (List.take_sublist _ _) hsorted
      refine htake.imp_of_mem ?_
      intro a b ha hb hab
      have ha' := scoreAll_fst_eq (queryVec client question) (r :: rest) a
        (List.mem_mergeSort.mp (List.mem_of_mem_take ha))
      have hb' := scoreAll_fst_eq (queryVec client question) (r :: rest) b
        (List.mem_mergeSort.mp (List.mem_of_mem_take hb))
      rw [leScored, decide_eq_true_eq] at hab
      rw [← ha', ← hb']
      exact hab

/-- Witness for C3 on a one-record KB with `k = 1`. -/
theorem retrieve_ranked_witness :
    (0 : ℤ) < 1 ∧
      (((retrieve_relevant_chunks (fun ts => ts.map (fun _ => [(1 : ℝ)]))
            ("q".toList) [⟨"a".toList, "p".toList, [(1 : ℝ)]⟩] 1).1).length
          ≤ (1 : ℤ).toNat ∧
        ((retrieve_relevant_chunks (fun ts => ts.map (fun _ => [(1 : ℝ)]))
            ("q".toList) [⟨"a".toList, "p".toList, [(1 : ℝ)]⟩] 1).1).length
          ≤ [(⟨"a".toList, "p".toList, [(1 : ℝ)]⟩ : Record)].length ∧
        List.Pairwise
          (fun a b : Record =>
            cosine_similarity
                (queryVec (fun ts => ts.map (fun _ => [(1 : ℝ)])) ("q".toList))
                b.embedding
              ≤ cosine_similarity
                (queryVec (fun ts => ts.map (fun _ => [(1 : ℝ)])) ("q".toList))
                a.embedding)
          ((retrieve_relevant_chunks (fun ts => ts.map (fun _ => [(1 : ℝ)]))
            ("q".toList) [⟨"a".toList, "p".toList, [(1 : ℝ)]⟩] 1).1)) :=
  ⟨by decide,
    retrieve_ranked (fun ts => ts.map (fun _ => [(1 : ℝ)])) ("q".toList)
      [⟨"a".toList, "p".toList, [(1 : ℝ)]⟩] 1 (by decide)⟩

/-- C6: for every client, query and positive `k`, retrieval on the empty KB
returns the empty sequence and performs no embedding-client call (the
observable invocation trace is empty). -/
theorem retrieve_empty_kb (client : List Str → List (List ℝ)) (question : Str)
    (k : ℤ) (hk : 0 < k) :
    retrieve_relevant_chunks client question [] k = ([], []) := rfl

/-- Witness for C6. -/
theorem retrieve_empty_kb_witness :
    (0 : ℤ) < 1 ∧
      retrieve_relevant_chunks (fun ts => ts.map (fun _ => [(1 : ℝ)]))
        ("q".toList) [] 1 = ([], []) :=
  ⟨by decide,
    retrieve_empty_kb (fun ts => ts.map (fun _ => [(1 : ℝ)])) ("q".toList) 1
      (by decide)⟩

/-- C10: outside the positive-`k` precondition, retrieval on a nonempty KB
follows Python slice semantics.  With `k = 0` it returns the empty sequence
while still embedding the query (one client call `[question]` is made); with
negative `k` it returns the first `|KB| + k` records (clamped at zero, as
`l[:k]` does) of the similarity-sorted sequence, again after embedding the
query. -/
theorem retrieve_slice_semantics (client : List Str → List (List ℝ))
    (question : Str) (kb : List Record) (k : ℤ) (hkb : kb ≠ []) (hk : k < 0) :
    retrieve_relevant_chunks client question kb 0 = ([], [[question]]) ∧
      (retrieve_relevant_chunks client question kb k).1
        = ((sortScored (scoreAll (queryVec client question) kb)).map
            (fun p => p.2)).take ((kb.length : ℤ) + k).toNat ∧
      (retrieve_relevant_chunks client question kb k).2 = [[question]] := by
  cases kb with
  | nil => exact absurd rfl hkb
  | cons r rest =>
    refine ⟨rfl, ?_, rfl⟩
    have hout : (retrieve_relevant_chunks client question (r :: rest) k).1
        = (pySlice k (sortScored
            (scoreAll (queryVec client question) (r :: rest)))).map
            (fun p => p.2) := rfl
    rw [hout, pySlice, if_neg (not_le.mpr hk), List.map_take]
    congr 2
    rw [length_sortScored, scoreAll, List.length_map]

/-- Witness for C10 on a one-record KB with `k = -1`. -/
theorem retrieve_slice_semantics_witness :
    ([(⟨"a".toList, "p".toList, [(1 : ℝ)]⟩ : Record)] ≠ [] ∧ (-1 : ℤ) < 0) ∧
      (retrieve_relevant_chunks (fun ts => ts.map (fun _ => [(1 : ℝ)]))
          ("q".toList) [⟨"a".toList, "p".toList, [(1 : ℝ)]⟩] 0
        = ([], [[("q".toList : Str)]]) ∧
      (retrieve_relevant_chunks (fun ts => ts.map (fun _ => [(1 : ℝ)]))
          ("q".toList) [⟨"a".toList, "p".toList, [(1 : ℝ)]⟩] (-1)).1
        = ((sortScored (scoreAll
            (queryVec (fun ts => ts.map (fun _ => [(1 : ℝ)])) ("q".toList))
            [⟨"a".toList, "p".toList, [(1 : ℝ)]⟩])).map
            (fun p => p.2)).take
            ((([(⟨"a".toList, "p".toList, [(1 : ℝ)]⟩ : Record)].length : ℤ)
              + (-1)).toNat) ∧
      (retrieve_relevant_chunks (fun ts => ts.map (fun _ => [(1 : ℝ)]))
          ("q".toList) [⟨"a".toList, "p".toList, [(1 : ℝ)]⟩] (-1)).2
        = [[("q".toList : Str)]]) :=
  ⟨⟨List.cons_ne_nil _ _, by decide⟩,
    retrieve_slice_semantics (fun ts => ts.map (fun _ => [(1 : ℝ)]))
      ("q".toList) [⟨"a".toList, "p".toList, [(1 : ℝ)]⟩] (-1)
      (List.cons_ne_nil _ _) (by decide)⟩

/-! ### Knowledge-base build and feedback composition -/

/-- `build_knowledge_base_from_paths` from `rag_backend.py`, with the PDF
text extractor (`pdf_to_text`) and the embeddings client modelled as
injected functions.  Per document, in input order: extract raw text, chunk
it with the default window of 350 words, embed all chunks in one batched
call, and append one record per `(chunk, embedding)` pair tagged with the
document path. -/
def build_knowledge_base_from_paths (pdfText : Str → Str)
    (client : List Str → List (List ℝ)) (pdf_paths : List Str) : List Record :=
  pdf_paths.foldl
    (fun kb path =>
      let raw_text := pdfText path
      let chunks := chunk_text raw_text 350
      let embeddings := (embed_texts client chunks).1
      kb ++ (chunks.zip embeddings).map (fun p => ⟨p.1, path, p.2⟩))
    []

/-- The records contributed by one document during the KB build. -/
def docRecords (pdfText : Str → Str) (client : List Str → List (List ℝ))
    (path : Str) : List Record :=
  ((chunk_text (pdfText path) 350).zip
      ((embed_texts client (chunk_text (pdfText path) 350)).1)).map
    (fun p => ⟨p.1, path, p.2⟩)

theorem foldl_append_eq_flatten {α β : Type} (f : α → List β) :
    ∀ (l : List α) (init : List β),
      l.foldl (fun acc x => acc ++ f x) init = init ++ (l.map f).flatten := by
  intro l
  induction l with
  | nil => intro init; simp
  | cons x xs ih =>
    intro init
    rw [List.foldl_cons, ih, List.map_cons, List.flatten_cons, List.append_assoc]

theorem zip_records_proj (path : Str) :
    ∀ (chunks : List Str) (embs : List (List ℝ)), chunks.length = embs.length →
      ((chunks.zip embs).map
          (fun p => (⟨p.1, path, p.2⟩ : Record))).map Record.text = chunks ∧
        ((chunks.zip embs).map
          (fun p => (⟨p.1, path, p.2⟩ : Record))).map Record.embedding = embs := by
  intro chunks
  induction chunks with
  | nil =>
    intro embs h
    cases embs with
    | nil => exact ⟨rfl, rfl⟩
    | cons e es => simp at h
  | cons c cs ih =>
    intro embs h
    cases embs with
    | nil => simp at h
    | cons e es =>
      have := ih es (by simpa using h)
      simp only [List.zip_cons_cons, List.map_cons]
      rw [this.1, this.2]
      exact ⟨rfl, rfl⟩

theorem embed_texts_length (client : List Str → List (List ℝ))
    (hclient : ∀ ts, (client ts).length = ts.length) (texts : List Str) :
    (embed_texts client texts).1.length = texts.length := by
  cases texts with
  | nil => rfl
  | cons t ts => exact hclient (t :: ts)

/-- C8: the KB build processes documents in input order and, under the
embedder contract (one vector per input text, same order), appends exactly
one record per `(chunk, embedding)` pair: the KB is the in-order
concatenation of each document's records, and each document's records carry
exactly its chunks as `text` (in chunk order), exactly the returned vectors
as `embedding`, and the document's path as `source`. -/
theorem build_kb_spec (pdfText : Str → Str) (client : List Str → List (List ℝ))
    (hclient : ∀ ts, (client ts).length = ts.length) (pdf_paths : List Str) :
    build_knowledge_base_from_paths pdfText client pdf_paths
        = ((pdf_paths.map (docRecords pdfText client)).flatten) ∧
      ∀ path,
        (docRecords pdfText client path).map Record.text
            = chunk_text (pdfText path) 350 ∧
          (docRecords pdfText client path).map Record.embedding
            = (embed_texts client (chunk_text (pdfText path) 350)).1 ∧
          ∀ r ∈ docRecords pdfText client path, r.source = path := by
  constructor
  · have hbody : build_knowledge_base_from_paths pdfText client pdf_paths
        = pdf_paths.foldl
            (fun acc x => acc ++ docRecords pdfText client x) [] := rfl
    rw [hbody, foldl_append_eq_flatten, List.nil_append]
  · intro path
    have hlen : (embed_texts client (chunk_text (pdfText path) 350)).1.length
        = (chunk_text (pdfText path) 350).length :=
      embed_texts_length client hclient _
    have hproj := zip_records_proj path (chunk_text (pdfText path) 350)
      (embed_texts client (chunk_text (pdfText path) 350)).1 hlen.symm
    refine ⟨hproj.1, hproj.2, ?_⟩
    intro r hr
    rcases List.mem_map.mp hr with ⟨p, _, rfl⟩
    rfl

/-- Witness for C8: one document, client embedding every text to `[1]`. -/
theorem build_kb_spec_witness :
    (∀ ts : List Str, ((fun ts : List Str => ts.map (fun _ => [(1 : ℝ)])) ts).length
        = ts.length) ∧
      (build_knowledge_base_from_paths (fun _ => "a b".toList)
            (fun ts => ts.map (fun _ => [(1 : ℝ)])) ["doc.pdf".toList]
          = ((["doc.pdf".toList].map
              (docRecords (fun _ => "a b".toList)
                (fun ts => ts.map (fun _ => [(1 : ℝ)])))).flatten) ∧
        ∀ path,
          (docRecords (fun _ => "a b".toList)
              (fun ts => ts.map (fun _ => [(1 : ℝ)])) path).map Record.text
              = chunk_text (("a b".toList : Str)) 350 ∧
            (docRecords (fun _ => "a b".toList)
                (fun ts => ts.map (fun _ => [(1 : ℝ)])) path).map Record.embedding
              = (embed_texts (fun ts => ts.map (fun _ => [(1 : ℝ)]))
                  (chunk_text (("a b".toList : Str)) 350)).1 ∧
            ∀ r ∈ docRecords (fun _ => "a b".toList)
                (fun ts => ts.map (fun _ => [(1 : ℝ)])) path,
              r.source = path) :=
  ⟨fun ts => by simp,
    build_kb_spec (fun _ => "a b".toList) (fun ts => ts.map (fun _ => [(1 : ℝ)]))
      (fun ts => by simp) ["doc.pdf".toList]⟩

/-- The literal placeholder context used by `feedback_on_student_answer`
when the KB is empty. -/
def noKbContext : Str :=
  "No PDF knowledge base is loaded.".toList

/-- The fixed system prompt of `feedback_on_student_answer` (persona and
style policy). -/
def system_prompt : Str :=
  ("You are BrighterText, a dyslexia-friendly reading tutor. You give feedback on student answers.\n\nRules:\n- Use short sentences and simple words.\n- Always be encouraging.\n- First say what they did well.\n- Then gently explain what is missing or incorrect.\n- Show a short model answer.\n- End with one small practice suggestion.").toList

/-- One labelled context block:
`f"[Source {i+1} – {item['source']}]\n{item['text']}"`. -/
def sourceBlock (i : Nat) (item : Record) : Str :=
  ("[Source ").toList ++ (toString (i + 1)).toList ++ (" – ").toList
    ++ item.source ++ ("]\n").toList ++ item.text

/-- The user turn of the feedback prompt: question, student answer and
formatted context. -/
def user_prompt (question student_answer context_text : Str) : Str :=
  ("Question:\n").toList ++ question ++ ("\n\nStudent's answer:\n").toList
    ++ student_answer ++ ("\n\nContext from teaching PDFs:\n").toList
    ++ context_text ++ ("\n\nGive feedback following the rules above.").toList

/-- `feedback_on_student_answer` from `rag_backend.py`, with the chat
completions client modelled as the injected function `complete` (system
prompt, user prompt ↦ reply text).  On a nonempty KB the context is built
from the top-5 retrieved records, each formatted as a labelled block and
joined with blank lines; on an empty KB the literal placeholder
`noKbContext` is used and retrieval is not invoked.  The second component
is the observable list of batched embedding-client invocations made. -/
noncomputable def feedback_on_student_answer
    (client : List Str → List (List ℝ)) (complete : Str → Str → Str)
    (question student_answer : Str) (kb : List Record) :
    Str × List (List Str) :=
  let ctx : Str × List (List Str) :=
    match kb with
    | [] => (noKbContext, [])
    | _ =>
      let r := retrieve_relevant_chunks client question kb 5
      (List.intercalate (("\n\n").toList)
        ((r.1.enum).map (fun p => sourceBlock p.1 p.2)), r.2)
  (complete system_prompt (user_prompt question student_answer ctx.1), ctx.2)

/-- C7: feedback composition on an empty KB does not invoke retrieval (the
observable embedding-call trace is empty), builds the prompt with the
literal placeholder context `noKbContext` ("No PDF knowledge base is
loaded."), and still returns the completion service's reply to that prompt
— no failure arises from the absence of documents. -/
theorem feedback_empty_kb (client : List Str → List (List ℝ))
    (complete : Str → Str → Str) (question student_answer : Str) :
    feedback_on_student_answer client complete question student_answer []
      = (complete system_prompt
          (user_prompt question student_answer noKbContext), []) := rfl
